import Mathlib

/-
Verification of the asciifier image-to-ASCII-art converter (asciifier.py).

The pixel-to-character mapping of `Asciifier.process` runs in Python floats,
i.e. IEEE-754 binary64.  We model that arithmetic exactly over ℚ: `rnd` is
round-to-nearest, ties-to-even, at 53 bits of significand with unbounded
exponent, which coincides with binary64 on the normal range (every value in
the programs under study lies far inside it).  The numeric literals 0.2126,
0.7152, 0.0722 are embedded as the exact rational values of their binary64
representations.

Byte strings of the Python-2 program are modelled as `List Char`, one `Char`
per byte, so `List.length` agrees with Python's `len`.

Layout arithmetic of `to_postscript` is modelled over ℚ (exact real
arithmetic); the facts proved about it are robust to the (≤ 1e-9) rounding
of the actual float computation.
-/

namespace Asciifier

/-- Round a rational to the nearest integer, ties going to the even integer
(the tie-breaking rule of IEEE-754 round-to-nearest-even). -/
def roundHalfEven (x : ℚ) : ℤ :=
  if x - ⌊x⌋ < 1/2 then ⌊x⌋
  else if 1/2 < x - ⌊x⌋ then ⌊x⌋ + 1
  else if ⌊x⌋ % 2 = 0 then ⌊x⌋ else ⌊x⌋ + 1

/-- IEEE-754 binary64 rounding (round to nearest, ties to even, 53-bit
significand, unbounded exponent) as an exact function on ℚ. -/
def rnd (q : ℚ) : ℚ :=
  if q = 0 then 0
  else if 0 < q then
    (roundHalfEven (q * (2 : ℚ) ^ ((52 : ℤ) - Int.log 2 q)) : ℚ) * (2 : ℚ) ^ (Int.log 2 q - 52)
  else
    -((roundHalfEven (-q * (2 : ℚ) ^ ((52 : ℤ) - Int.log 2 (-q))) : ℚ) *
      (2 : ℚ) ^ (Int.log 2 (-q) - 52))

/-- The unit roundoff of binary64: 2^(-53). -/
def eps : ℚ := 1 / 9007199254740992

/-- Python `int()` applied to a float: truncation toward zero. -/
def truncQ (x : ℚ) : ℤ := if x < 0 then ⌈x⌉ else ⌊x⌋

/-- Python list subscription `l[i]`: nonnegative indices from the front,
negative indices from the back, out-of-range raises (modelled as `none`). -/
def pyGet (l : List Char) (i : ℤ) : Option Char :=
  if 0 ≤ i then l.get? i.toNat
  else if 0 ≤ i + l.length then l.get? (i + l.length).toNat else none

/-- The binary64 value of the Python literal 0.2126 (exact). -/
def c1 : ℚ := 1914930561557935 / 9007199254740992

/-- The binary64 value of the Python literal 0.7152 (exact). -/
def c2 : ℚ := 6441948906990757 / 9007199254740992

/-- The binary64 value of the Python literal 0.0722 (exact). -/
def c3 : ℚ := 5202558289538397 / 72057594037927936

/-- The default luminosity ramp assigned in `Asciifier.__init__`
(asciifier.py lines 80-86), darkest character first. -/
def luminosity : List Char :=
  ['H', 'R', 'B', 'E', 'p', 'M', 'q', 'Q', 'N', 'W', 'g', '#', 'm', 'b',
   'A', 'K', 'd', 'D', '8', '@', 'P', 'G', 'F', 'U', 'h', 'X', 'e', 'T',
   'Z', 'S', 'k', 'O', '$', 'y', 'a', 'L', 'f', '6', '0', 'w', '9', '&',
   '5', 'Y', 'x', '4', 'n', 's', 'C', '%', 'V', 'o', '2', 'u', 'J', 'I',
   'z', '3', 'j', 'c', 't', 'r', 'l', 'v', 'i', '\x7d', '?', '\x7b', '1', '=',
   ']', '[', '+', '7', '<', '>', '|', '!', '*', '/', ';', ':', '~', '-',
   '.', ' ']

/-- The luminance float `l = 0.2126 * r + 0.7152 * g + 0.0722 * b` of
`Asciifier.process` (line 288), with every operation rounded as binary64
(Python evaluates the two additions left to right). -/
def lumF (r g b : ℕ) : ℚ :=
  rnd (rnd (rnd (c1 * r) + rnd (c2 * g)) + rnd (c3 * b))

/-- The ramp index `int(l * nchars / 255)` of `Asciifier.process` (line 289)
for a ramp of length `n`, in binary64 arithmetic. -/
def lumIndex (n r g b : ℕ) : ℤ :=
  truncQ (rnd (rnd (lumF r g b * n) / 255))

/-- The character stored at `result[x][y]`:
`self.luminosity[int(l * nchars / 255)]` (line 289). -/
def mapPixel (r g b : ℕ) : Option Char :=
  pyGet luminosity (lumIndex luminosity.length r g b)

/-- The grid built by the loops of `Asciifier.process` (lines 282-289):
`result[x][y]` holds the ramp character of the sampled pixel `(x, y)`. -/
def processResult (img : ℕ → ℕ → ℕ × ℕ × ℕ) (w h : ℕ) : List (List (Option Char)) :=
  (List.range w).map fun x => (List.range h).map fun y =>
    mapPixel (img x y).1 (img x y).2.1 (img x y).2.2

/-- `Asciifier.generate_luminosity_mapping` (lines 88-106).  Loading the font
and rasterising a glyph are external calls (PIL `ImageFont` / `ImageDraw`);
the outcome of `ImageFont.truetype` is modelled as an `Option F` (`none` when
it raises `IOError`), and the summed `0.2126*r + 0.7152*g + 0.0722*b` ink
value of the glyph of code point `c` is a parameter `ink`.  On failure the
function returns at once (line 93), leaving `self.luminosity` untouched;
on success it replaces the ramp by the 95 code points 32..126 sorted by
ascending ink value (Python's `sorted` is stable, as is `mergeSort`). -/
def generate_luminosity_mapping (F : Type) (font : Option F) (ink : F → ℕ → ℚ)
    (lum : List Char) : List Char :=
  match font with
  | none => lum
  | some f =>
    ((((List.range 95).map fun k => (ink f (32 + k), Char.ofNat (32 + k))).mergeSort
      fun a b => decide (a.1 ≤ b.1)).map fun p => p.2)

/-- The running-sum loop of `cumsum` (lines 18-24): accumulator `s`. -/
def cumsumGo (s : ℤ) : List ℤ → List ℤ
  | [] => []
  | x :: xs => (s + x) :: cumsumGo (s + x) xs

/-- `cumsum(arr)` (lines 18-24). -/
def cumsum (arr : List ℤ) : List ℤ := cumsumGo 0 arr

/-- Python `'\n'.join`, on byte strings modelled as char lists. -/
def joinNL (ls : List (List Char)) : List Char := List.intercalate ['\n'] ls

/-- Line 198: `cumsum(map(lambda b: len(b), map(lambda block: '\n'.join(block), blocks)))`. -/
def blockoffsets (blocks : List (List (List Char))) : List ℤ :=
  cumsum (blocks.map fun b => ((joinNL b).length : ℤ))

/-- Decimal digit string of a nonnegative integer (Python `'{}'.format(n)`). -/
def intStr (n : ℤ) : List Char := Nat.toDigits 10 n.toNat

/-- Python `'{0:010d}'.format(n)` for nonnegative `n`. -/
def pad10 (n : ℤ) : List Char :=
  List.replicate (10 - (intStr n).length) '0' ++ intStr n

/-- The cross-reference / trailer block built in lines 200-216: the
subsection header declares `blockcount` entries, then one free entry and one
in-use entry per element of `blockoffsets` are listed, then the trailer with
`/Size len(blocks)+1` and the `startxref` value `blockoffsets[blockcount-1]`
(the Python subscript, defined since `blocks` is never empty). -/
def xrefSection (blocks : List (List (List Char))) : List (List Char) :=
  ["xref".data,
   "0 ".data ++ intStr ((blockoffsets blocks).length : ℤ),
   pad10 0 ++ " 65535 f".data]
  ++ (blockoffsets blocks).map (fun o => pad10 o ++ " 00000 n".data)
  ++ ["trailer<<".data, "  /Root 1 0 R".data, "  /Info 6 0 R".data,
      "  /Size ".data ++ intStr ((blocks.length : ℤ) + 1),
      ">>".data, "startxref".data,
      intStr ((blockoffsets blocks).getLast?.getD 0),
      "%%EOF".data]

/-- Lines 217-218: append the xref block, join each block's lines with
newlines, and join the blocks with newlines. -/
def to_pdf_assemble (blocks : List (List (List Char))) : List Char :=
  joinNL ((blocks ++ [xrefSection blocks]).map joinNL)

/-- `zlib.compress('', 9)`: the deflate stream of the empty string
(an external library call with a fixed, well-known 8-byte result). -/
def emptyStreamZ : List Char :=
  ['x', Char.ofNat 218, Char.ofNat 3, Char.ofNat 0, Char.ofNat 0,
   Char.ofNat 0, Char.ofNat 0, Char.ofNat 1]

/-- The nine blocks `to_pdf` builds for a concrete run: an all-white sampled
image (every cell is the blank, so the content stream is empty and its
compressed form is `emptyStreamZ`), default paper a3 (297x420), font name
Courier (whose ramp regeneration fails, keeping the default 86-char ramp, so
`ord(min(...)) = 32`, `ord(max(...)) = 126` and one `'200'` width per ramp
character), `CreationDate` 20260101120000. -/
def pdfBlocksWhite : List (List (List Char)) :=
  [["%PDF-1.7".data, '%' :: [Char.ofNat 254, Char.ofNat 245, Char.ofNat 244]],
   ["1 0 obj<< /Type/Catalog/Pages 2 0 R >>endobj".data],
   ["2 0 obj<< /Type/Pages/Count 1 /Kids [3 0 R] >>endobj".data],
   ["3 0 obj<< /Type/Page".data, "     /UserUnit 2.834645669".data,
    "     /MediaBox [0 0 297 420]".data, "     /Parent 2 0 R".data,
    "     /Resources << /Font << /F1 4 0 R >> >>".data, "     /Contents 5 0 R".data,
    "  >>".data, "endobj".data],
   ["4 0 obj".data, "  << /Type/Font /Subtype/TrueType /Name/F1".data,
    "     /BaseFont/Courier".data, "     /FirstChar 32 /LastChar 126".data,
    "     /Widths 7 0 R".data, "     /FontDescriptor 8 0 R".data,
    "     /Encoding/MacRomanEncoding  >>".data, "endobj".data],
   ["5 0 obj<< /Length 8 /Filter[/FlateDecode]>>stream".data, emptyStreamZ,
    "endstream".data, "endobj".data],
   ["6 0 obj<<".data, "  /Producer(ASCIIfier)".data, "  /Creator(ASCIIfier)".data,
    "  /Subject(retro computing)".data, "  /Keywords(ASCII art fun)".data,
    "  /CreationDate(D:20260101120000)".data, ">>endobj".data],
   ["7 0 obj [".data, List.intercalate [' '] (luminosity.map fun _ => "200".data),
    "]".data],
   ["8 0 obj<<".data, ">>".data]]

/-- `mm2pt` (line 28). -/
def mm2pt (mm : ℚ) : ℚ := 2.834645669 * mm

/-- `size_pt` of `to_postscript` (lines 225-226): the printable size in
points, paper and margins both converted from millimeters, each component
passed through `math.ceil`.  Margin components are ordered as in the
`Margin` constructor: top, right, bottom, left. -/
def psPrintable (pw ph mT mR mB mL : ℚ) : ℚ × ℚ :=
  (((⌈mm2pt pw - mm2pt (mL + mR)⌉ : ℤ) : ℚ), ((⌈mm2pt ph - mm2pt (mT + mB)⌉ : ℤ) : ℚ))

/-- `size` of `to_postscript` (line 229): the grid's natural size in points
at the fixed 12-point cell pitch. -/
def psNatural (w h : ℕ) : ℚ × ℚ := ((w : ℚ) * 12, (h : ℚ) * 12)

/-- `scale` of `to_postscript` (line 230). -/
def psScale (pw ph mT mR mB mL : ℚ) (w h : ℕ) : ℚ :=
  (psPrintable pw ph mT mR mB mL).1 / (psNatural w h).1

/-- `offset` of `to_postscript` (lines 232-233), the argument of the
`translate` directive. -/
def psOffset (pw ph mT mR mB mL : ℚ) (w h : ℕ) : ℚ × ℚ :=
  (mL + ((psPrintable pw ph mT mR mB mL).1
          - (psNatural w h).1 * psScale pw ph mT mR mB mL w h) / 2,
   mT + ((psPrintable pw ph mT mR mB mL).2
          - (psNatural w h).2 * psScale pw ph mT mR mB mL w h) / 2)

/-- Modelled from the spec: the translate offset that would center the
scaled content within the printable area lying between the converted
margins — left/bottom edge of that area plus half the unused extent
(PostScript's origin is the lower-left corner). -/
def centeredOffset (pw ph mT mR mB mL : ℚ) (w h : ℕ) : ℚ × ℚ :=
  (mm2pt mL + ((psPrintable pw ph mT mR mB mL).1
          - (psNatural w h).1 * psScale pw ph mT mR mB mL w h) / 2,
   mm2pt mB + ((psPrintable pw ph mT mR mB mL).2
          - (psNatural w h).2 * psScale pw ph mT mR mB mL w h) / 2)

/-- The characters stripped by Python's `str.rstrip()`. -/
def isPySpace (c : Char) : Bool :=
  c == ' ' || c == '\t' || c == '\n' || c == '\r' || c == Char.ofNat 11 || c == Char.ofNat 12

/-- Python `''.join(line).rstrip()`: remove trailing whitespace only. -/
def rstripPy (l : List Char) : List Char := (l.reverse.dropWhile isPySpace).reverse

/-- One step of Python `zip(*result)` per unit of fuel: emit the tuple of
heads while every argument list is nonempty. -/
def pyZipGo : ℕ → List (List Char) → List (List Char)
  | 0, _ => []
  | fuel + 1, cols =>
    if cols.isEmpty || cols.any List.isEmpty then []
    else (cols.map fun c => c.headD ' ') :: pyZipGo fuel (cols.map List.tail)

/-- Python `zip(*result)`: truncating transposition.  The number of rows it
can produce is at most the length of the first column, which therefore
serves as fuel. -/
def pyZip (cols : List (List Char)) : List (List Char) :=
  pyZipGo (cols.headD []).length cols

/-- `Asciifier.to_plain_text` (lines 272-274). -/
def to_plain_text (result : List (List Char)) : List Char :=
  joinNL ((pyZip result).map rstripPy)

/-- Modelled from the spec: transpose the `[column][row]` grid of known
height `h` into image rows, strip only trailing whitespace from each row,
join with single newlines. -/
def plainTextSpec (h : ℕ) (result : List (List Char)) : List Char :=
  joinNL (((List.range h).map fun y => result.map fun col => col.getD y ' ').map rstripPy)

/-! ### Properties of the binary64 rounding model -/

theorem roundHalfEven_abs_le (x : ℚ) : |(roundHalfEven x : ℚ) - x| ≤ 1/2 := by
  unfold roundHalfEven
  have h0 : (0:ℚ) ≤ x - ⌊x⌋ := by have := Int.floor_le x; linarith
  have h1 : x - ⌊x⌋ < 1 := by have := Int.lt_floor_add_one x; linarith
  split_ifs with hc hd he
  · rw [abs_le]; constructor <;> linarith
  · rw [abs_le]; push_cast; constructor <;> linarith
  · rw [abs_le]; constructor <;> linarith
  · rw [abs_le]; push_cast; constructor <;> linarith

theorem roundHalfEven_eq_of {x : ℚ} {n : ℤ} (h : |x - n| < 1/2) : roundHalfEven x = n := by
  rw [abs_lt] at h
  obtain ⟨hl, hr⟩ := h
  unfold roundHalfEven
  rcases le_or_lt (n : ℚ) x with hx | hx
  · have hf : ⌊x⌋ = n := Int.floor_eq_iff.mpr ⟨by exact_mod_cast hx, by push_cast; linarith⟩
    rw [hf, if_pos (by linarith)]
  · have hf : ⌊x⌋ = n - 1 :=
      Int.floor_eq_iff.mpr ⟨by push_cast; linarith, by push_cast; linarith⟩
    rw [hf, if_neg (by push_cast at hl ⊢; linarith),
      if_pos (by push_cast at hl ⊢; linarith)]
    omega

theorem rnd_zero : rnd 0 = 0 := by simp [rnd]

theorem rnd_abs_sub_le (q : ℚ) (hq : 0 < q) : |rnd q - q| ≤ q * eps := by
  unfold rnd
  rw [if_neg (ne_of_gt hq), if_pos hq]
  set e := Int.log 2 q with he
  set y := q * (2:ℚ) ^ ((52:ℤ) - e) with hy
  have h2 : (0:ℚ) < (2:ℚ) ^ (e - (52:ℤ)) := by positivity
  have hq' : q = y * (2:ℚ) ^ (e - (52:ℤ)) := by
    rw [hy, mul_assoc, ← zpow_add₀ (by norm_num : (2:ℚ) ≠ 0)]
    norm_num
  have h1 : |(roundHalfEven y : ℚ) - y| ≤ 1/2 := roundHalfEven_abs_le y
  have key : |(roundHalfEven y : ℚ) * (2:ℚ) ^ (e - (52:ℤ)) - q|
      = |(roundHalfEven y : ℚ) - y| * (2:ℚ) ^ (e - (52:ℤ)) := by
    rw [hq', ← sub_mul, abs_mul, abs_of_pos h2]
  rw [key]
  have step1 : |(roundHalfEven y : ℚ) - y| * (2:ℚ) ^ (e - (52:ℤ))
      ≤ (1/2) * (2:ℚ) ^ (e - (52:ℤ)) := by
    exact mul_le_mul_of_nonneg_right h1 (le_of_lt h2)
  have step2 : (1/2 : ℚ) * (2:ℚ) ^ (e - (52:ℤ)) = (2:ℚ) ^ e * (2:ℚ) ^ (-53 : ℤ) := by
    rw [← zpow_add₀ (by norm_num : (2:ℚ) ≠ 0)]
    have : (1/2 : ℚ) = (2:ℚ) ^ (-1 : ℤ) := by norm_num
    rw [this, ← zpow_add₀ (by norm_num : (2:ℚ) ≠ 0)]
    congr 1
    omega
  have hloge : (2:ℚ) ^ e ≤ q := Int.zpow_log_le_self (by norm_num) hq
  have heps : (2:ℚ) ^ (-53 : ℤ) = eps := by
    rw [eps, zpow_neg]
    norm_num
  calc |(roundHalfEven y : ℚ) - y| * (2:ℚ) ^ (e - (52:ℤ))
      ≤ (1/2) * (2:ℚ) ^ (e - (52:ℤ)) := step1
    _ = (2:ℚ) ^ e * (2:ℚ) ^ (-53 : ℤ) := step2
    _ ≤ q * (2:ℚ) ^ (-53 : ℤ) := by
        exact mul_le_mul_of_nonneg_right hloge (by positivity)
    _ = q * eps := by rw [heps]

theorem rnd_nonneg (q : ℚ) (hq : 0 ≤ q) : 0 ≤ rnd q := by
  rcases eq_or_lt_of_le hq with h | h
  · rw [← h, rnd_zero]
  · have := rnd_abs_sub_le q h
    rw [abs_le] at this
    have heps : eps < 1 := by rw [eps]; norm_num
    nlinarith [this.1]

theorem rnd_le_bound (q C : ℚ) (hq : 0 ≤ q) (h : q ≤ C) : rnd q ≤ C * (1 + eps) := by
  have hC : 0 ≤ C := le_trans hq h
  have heps : (0:ℚ) ≤ eps := by rw [eps]; norm_num
  rcases eq_or_lt_of_le hq with h0 | h0
  · rw [← h0, rnd_zero]; positivity
  · have habs := rnd_abs_sub_le q h0
    rw [abs_le] at habs
    nlinarith [habs.2]

theorem rnd_eq_num (q : ℚ) (e : ℕ) (m : ℤ) (v : ℚ)
    (h1 : 2 ^ e ≤ q) (h2 : q < 2 ^ (e + 1))
    (hc : |q * 2 ^ 52 - (m : ℚ) * 2 ^ e| < 2 ^ e / 2)
    (hv : (m : ℚ) * 2 ^ e / 2 ^ 52 = v) :
    rnd q = v := by
  have hq : 0 < q := lt_of_lt_of_le (by positivity) h1
  have hlog : Int.log 2 q = (e : ℤ) := by
    have hle : (e : ℤ) ≤ Int.log 2 q := by
      rw [← Int.zpow_le_iff_le_log (by norm_num) hq, zpow_natCast]
      exact h1
    have hlt : Int.log 2 q < (e : ℤ) + 1 := by
      rw [← Int.lt_zpow_iff_log_lt (by norm_num) hq]
      have : ((e : ℤ) + 1) = ((e + 1 : ℕ) : ℤ) := by push_cast; ring
      rw [this, zpow_natCast]
      exact h2
    omega
  unfold rnd
  rw [if_neg (ne_of_gt hq), if_pos hq, hlog]
  have h2e : (0:ℚ) < (2:ℚ) ^ (e : ℕ) := by positivity
  have h52 : (2:ℚ) ^ (52:ℤ) = 2 ^ (52:ℕ) := by norm_num
  have harg : q * (2:ℚ) ^ ((52:ℤ) - (e : ℤ)) = q * 2 ^ 52 / 2 ^ e := by
    rw [zpow_sub₀ (by norm_num : (2:ℚ) ≠ 0), zpow_natCast, h52]
    ring
  have hm : roundHalfEven (q * (2:ℚ) ^ ((52:ℤ) - (e : ℤ))) = m := by
    apply roundHalfEven_eq_of
    rw [harg]
    have expand : q * 2 ^ 52 / 2 ^ e - (m : ℚ) = (q * 2 ^ 52 - (m : ℚ) * 2 ^ e) / 2 ^ e := by
      field_simp
      ring
    rw [expand, abs_div, abs_of_pos h2e]
    rw [div_lt_iff₀ h2e]
    calc |q * 2 ^ 52 - (m : ℚ) * 2 ^ e| < 2 ^ e / 2 := hc
      _ ≤ 1/2 * 2 ^ e := by ring_nf; exact le_refl _
  rw [hm, zpow_sub₀ (by norm_num : (2:ℚ) ≠ 0), zpow_natCast, h52, ← hv]
  ring

/-! ### The luminance computation in binary64 -/

theorem lumF_white : lumF 255 255 255 = 8972014882652159 / 35184372088832 := by
  unfold lumF
  push_cast
  rw [rnd_eq_num (c1 * 255) 5 7629801456207397 (7629801456207397 / 140737488355328)
    (by norm_num [c1]) (by norm_num [c1])
    (by rw [abs_lt]; constructor <;> norm_num [c1]) (by norm_num)]
  rw [rnd_eq_num (c2 * 255) 7 6416785044072824 (6416785044072824 / 35184372088832)
    (by norm_num [c2]) (by norm_num [c2])
    (by rw [abs_lt]; constructor <;> norm_num [c2]) (by norm_num)]
  rw [rnd_eq_num (c3 * 255) 4 5182235796219888 (5182235796219888 / 281474976710656)
    (by norm_num [c3]) (by norm_num [c3])
    (by rw [abs_lt]; constructor <;> norm_num [c3]) (by norm_num)]
  rw [rnd_eq_num (7629801456207397 / 140737488355328 + 6416785044072824 / 35184372088832)
    7 8324235408124673 (8324235408124673 / 35184372088832)
    (by norm_num) (by norm_num)
    (by rw [abs_lt]; constructor <;> norm_num) (by norm_num)]
  rw [rnd_eq_num (8324235408124673 / 35184372088832 + 5182235796219888 / 281474976710656)
    7 8972014882652159 (8972014882652159 / 35184372088832)
    (by norm_num) (by norm_num)
    (by rw [abs_lt]; constructor <;> norm_num) (by norm_num)]

theorem lumIndex_white_86 : lumIndex 86 255 255 255 = 85 := by
  unfold lumIndex
  rw [lumF_white]
  push_cast
  rw [rnd_eq_num (8972014882652159 / 35184372088832 * 86) 14 6028072499281919
    (6028072499281919 / 274877906944)
    (by norm_num) (by norm_num)
    (by rw [abs_lt]; constructor <;> norm_num) (by norm_num)]
  rw [rnd_eq_num (6028072499281919 / 274877906944 / 255) 6 6051711999279103
    (6051711999279103 / 70368744177664)
    (by norm_num) (by norm_num)
    (by rw [abs_lt]; constructor <;> norm_num) (by norm_num)]
  unfold truncQ
  rw [if_neg (by norm_num)]
  rw [Int.floor_eq_iff]
  constructor <;> norm_num

theorem lumIndex_white_95 : lumIndex 95 255 255 255 = 94 := by
  unfold lumIndex
  rw [lumF_white]
  push_cast
  rw [rnd_eq_num (8972014882652159 / 35184372088832 * 95) 14 6658917295718399
    (6658917295718399 / 274877906944)
    (by norm_num) (by norm_num)
    (by rw [abs_lt]; constructor <;> norm_num) (by norm_num)]
  rw [rnd_eq_num (6658917295718399 / 274877906944 / 255) 6 6685030696878079
    (6685030696878079 / 70368744177664)
    (by norm_num) (by norm_num)
    (by rw [abs_lt]; constructor <;> norm_num) (by norm_num)]
  unfold truncQ
  rw [if_neg (by norm_num)]
  rw [Int.floor_eq_iff]
  constructor <;> norm_num

theorem lumF_zero_arg : lumF 0 0 0 = 0 := by
  unfold lumF
  simp [rnd_zero]

theorem lumIndex_zero (n : ℕ) : lumIndex n 0 0 0 = 0 := by
  unfold lumIndex
  rw [lumF_zero_arg]
  simp [rnd_zero, truncQ]

theorem lumF_nonneg (r g b : ℕ) : 0 ≤ lumF r g b := by
  have hc1 : (0:ℚ) ≤ c1 := by norm_num [c1]
  have hc2 : (0:ℚ) ≤ c2 := by norm_num [c2]
  have hc3 : (0:ℚ) ≤ c3 := by norm_num [c3]
  unfold lumF
  exact rnd_nonneg _ (add_nonneg
    (rnd_nonneg _ (add_nonneg (rnd_nonneg _ (mul_nonneg hc1 (Nat.cast_nonneg r)))
      (rnd_nonneg _ (mul_nonneg hc2 (Nat.cast_nonneg g)))))
    (rnd_nonneg _ (mul_nonneg hc3 (Nat.cast_nonneg b))))

theorem lumIndex_nonneg (n r g b : ℕ) : 0 ≤ lumIndex n r g b := by
  unfold lumIndex
  have h : 0 ≤ rnd (rnd (lumF r g b * n) / 255) :=
    rnd_nonneg _ (div_nonneg
      (rnd_nonneg _ (mul_nonneg (lumF_nonneg r g b) (Nat.cast_nonneg n)))
      (by norm_num))
  unfold truncQ
  rw [if_neg (not_lt.mpr h)]
  exact Int.floor_nonneg.mpr h

theorem lumF_le_notwhite (r g b : ℕ) (hr : r ≤ 255) (hg : g ≤ 255) (hb : b ≤ 255)
    (hne : ¬(r = 255 ∧ g = 255 ∧ b = 255)) :
    lumF r g b ≤ (((255 * (c1 + c2 + c3) - c3) * (1 + eps)) * (1 + eps)) * (1 + eps) := by
  have hc1 : (0:ℚ) ≤ c1 := by norm_num [c1]
  have hc2 : (0:ℚ) ≤ c2 := by norm_num [c2]
  have hc3 : (0:ℚ) ≤ c3 := by norm_num [c3]
  have e0 : (0:ℚ) ≤ 1 + eps := by norm_num [eps]
  have h1e : (1:ℚ) ≤ 1 + eps := by norm_num [eps]
  have hE : c1 * r + c2 * g + c3 * b ≤ 255 * (c1 + c2 + c3) - c3 := by
    have hcase : r ≤ 254 ∨ g ≤ 254 ∨ b ≤ 254 := by omega
    have hrq : (r:ℚ) ≤ 255 := by exact_mod_cast hr
    have hgq : (g:ℚ) ≤ 255 := by exact_mod_cast hg
    have hbq : (b:ℚ) ≤ 255 := by exact_mod_cast hb
    have m1 := mul_le_mul_of_nonneg_left hrq hc1
    have m2 := mul_le_mul_of_nonneg_left hgq hc2
    have m3 := mul_le_mul_of_nonneg_left hbq hc3
    rcases hcase with h | h | h
    · have hq : (r:ℚ) ≤ 254 := by exact_mod_cast h
      have := mul_le_mul_of_nonneg_left hq hc1
      have hcc : c3 ≤ c1 := by norm_num [c1, c3]
      linarith
    · have hq : (g:ℚ) ≤ 254 := by exact_mod_cast h
      have := mul_le_mul_of_nonneg_left hq hc2
      have hcc : c3 ≤ c2 := by norm_num [c2, c3]
      linarith
    · have hq : (b:ℚ) ≤ 254 := by exact_mod_cast h
      have := mul_le_mul_of_nonneg_left hq hc3
      linarith
  have h1 : rnd (c1 * r) ≤ (c1 * r) * (1 + eps) :=
    rnd_le_bound _ _ (mul_nonneg hc1 (Nat.cast_nonneg r)) le_rfl
  have h2 : rnd (c2 * g) ≤ (c2 * g) * (1 + eps) :=
    rnd_le_bound _ _ (mul_nonneg hc2 (Nat.cast_nonneg g)) le_rfl
  have h3 : rnd (c3 * b) ≤ (c3 * b) * (1 + eps) :=
    rnd_le_bound _ _ (mul_nonneg hc3 (Nat.cast_nonneg b)) le_rfl
  have h1n : 0 ≤ rnd (c1 * (r:ℚ)) := rnd_nonneg _ (mul_nonneg hc1 (Nat.cast_nonneg r))
  have h2n : 0 ≤ rnd (c2 * (g:ℚ)) := rnd_nonneg _ (mul_nonneg hc2 (Nat.cast_nonneg g))
  have h3n : 0 ≤ rnd (c3 * (b:ℚ)) := rnd_nonneg _ (mul_nonneg hc3 (Nat.cast_nonneg b))
  have k2 : rnd (rnd (c1 * r) + rnd (c2 * g)) ≤ ((c1 * r + c2 * g) * (1 + eps)) * (1 + eps) := by
    apply rnd_le_bound _ _ (add_nonneg h1n h2n)
    linarith
  have k3 : rnd (c3 * b) ≤ ((c3 * b) * (1 + eps)) * (1 + eps) := by
    have hpos : 0 ≤ (c3 * (b:ℚ)) * (1 + eps) :=
      mul_nonneg (mul_nonneg hc3 (Nat.cast_nonneg b)) e0
    exact le_trans h3 (le_mul_of_one_le_right hpos h1e)
  have k5 : lumF r g b ≤ (((c1 * r + c2 * g + c3 * b) * (1 + eps)) * (1 + eps)) * (1 + eps) := by
    unfold lumF
    apply rnd_le_bound _ _ (add_nonneg (rnd_nonneg _ (add_nonneg h1n h2n)) h3n)
    have hring : ((c1 * (r:ℚ) + c2 * g) * (1 + eps)) * (1 + eps)
        + ((c3 * b) * (1 + eps)) * (1 + eps)
        = ((c1 * r + c2 * g + c3 * b) * (1 + eps)) * (1 + eps) := by ring
    linarith
  have m1 := mul_le_mul_of_nonneg_right hE e0
  have m2 := mul_le_mul_of_nonneg_right m1 e0
  have m3 := mul_le_mul_of_nonneg_right m2 e0
  linarith

theorem lumIndex_lt_notwhite (n r g b : ℕ) (hn : 0 < n)
    (hr : r ≤ 255) (hg : g ≤ 255) (hb : b ≤ 255)
    (hne : ¬(r = 255 ∧ g = 255 ∧ b = 255)) :
    lumIndex n r g b < n := by
  have e0 : (0:ℚ) ≤ 1 + eps := by norm_num [eps]
  have hnq : (0:ℚ) < n := by exact_mod_cast hn
  set B3 : ℚ := (((255 * (c1 + c2 + c3) - c3) * (1 + eps)) * (1 + eps)) * (1 + eps) with hB3
  have hB3n : 0 ≤ B3 := le_trans (lumF_nonneg r g b) (lumF_le_notwhite r g b hr hg hb hne)
  have hLn : lumF r g b * n ≤ B3 * n :=
    mul_le_mul_of_nonneg_right (lumF_le_notwhite r g b hr hg hb hne) (Nat.cast_nonneg n)
  have ht : rnd (lumF r g b * n) ≤ (B3 * n) * (1 + eps) :=
    rnd_le_bound _ _ (mul_nonneg (lumF_nonneg r g b) (Nat.cast_nonneg n)) hLn
  have htn : 0 ≤ rnd (lumF r g b * n) :=
    rnd_nonneg _ (mul_nonneg (lumF_nonneg r g b) (Nat.cast_nonneg n))
  have hdiv : rnd (lumF r g b * n) / 255 ≤ ((B3 * n) * (1 + eps)) / 255 := by
    gcongr
  have hf : rnd (rnd (lumF r g b * n) / 255) ≤ (((B3 * n) * (1 + eps)) / 255) * (1 + eps) :=
    rnd_le_bound _ _ (div_nonneg htn (by norm_num)) hdiv
  have hfinal : (((B3 * n) * (1 + eps)) / 255) * (1 + eps) < n := by
    have hkey : B3 * ((1 + eps) * (1 + eps)) / 255 < 1 := by
      rw [hB3]
      norm_num [c1, c2, c3, eps]
    have hexp : (((B3 * n) * (1 + eps)) / 255) * (1 + eps)
        = n * (B3 * ((1 + eps) * (1 + eps)) / 255) := by ring
    rw [hexp]
    calc (n:ℚ) * (B3 * ((1 + eps) * (1 + eps)) / 255) < n * 1 := by
          exact mul_lt_mul_of_pos_left hkey hnq
      _ = n := mul_one _
  unfold lumIndex truncQ
  have hge : 0 ≤ rnd (rnd (lumF r g b * n) / 255) :=
    rnd_nonneg _ (div_nonneg htn (by norm_num))
  rw [if_neg (not_lt.mpr hge)]
  rw [Int.floor_lt]
  push_cast
  linarith

set_option maxRecDepth 100000

theorem luminosity_length : luminosity.length = 86 := rfl

/-- C1: for every RGB triple with components in [0, 255] and each ramp length
the program can hold (86 for the default ramp, 95 for a successfully generated
one), the ramp index `int(l * N / 255)` computed by `Asciifier.process` in
binary64 arithmetic lies in [0, N-1]; in particular pure white (255,255,255)
does not produce the out-of-range index N (the rounded coefficients sum to
slightly less than 1, so the luminance float stays strictly below 255). -/
theorem ramp_index_in_range (n r g b : ℕ) (hn : n = 86 ∨ n = 95)
    (hr : r ≤ 255) (hg : g ≤ 255) (hb : b ≤ 255) :
    0 ≤ lumIndex n r g b ∧ lumIndex n r g b ≤ (n : ℤ) - 1 := by
  refine ⟨lumIndex_nonneg n r g b, ?_⟩
  by_cases hw : r = 255 ∧ g = 255 ∧ b = 255
  · obtain ⟨h1, h2, h3⟩ := hw
    subst h1; subst h2; subst h3
    rcases hn with h | h <;> subst h
    · rw [lumIndex_white_86]; norm_num
    · rw [lumIndex_white_95]; norm_num
  · have h := lumIndex_lt_notwhite n r g b (by omega) hr hg hb hw
    omega

theorem ramp_index_in_range_witness :
    (86 = 86 ∨ 86 = 95) ∧ 255 ≤ 255 ∧
    (0 ≤ lumIndex 86 255 255 255 ∧ lumIndex 86 255 255 255 ≤ (86 : ℤ) - 1) :=
  ⟨Or.inl rfl, le_refl _,
    ramp_index_in_range 86 255 255 255 (Or.inl rfl) (le_refl _) (le_refl _) (le_refl _)⟩

/-- C3: with the default ramp, pure black (0,0,0) maps to the ramp's first
character and pure white (255,255,255) maps to the ramp's last character. -/
theorem mapPixel_black_white :
    mapPixel 0 0 0 = luminosity.head? ∧ mapPixel 255 255 255 = luminosity.getLast? := by
  constructor
  · unfold mapPixel
    rw [luminosity_length, lumIndex_zero]
    decide
  · unfold mapPixel
    rw [luminosity_length, lumIndex_white_86]
    decide

/-- C5 counterexample: the default ramp does not have 95 characters. -/
theorem default_ramp_not_95_chars : luminosity.length ≠ 95 := by decide

/-- C5 (amended): the default ramp is a fixed sequence of exactly 86
characters, it is never empty, and its last (lightest) entry is the blank. -/
theorem default_ramp_shape :
    luminosity.length = 86 ∧ luminosity ≠ [] ∧ luminosity.getLast? = some ' ' := by
  refine ⟨rfl, by decide, rfl⟩

/-- C6: if the font file cannot be loaded (`ImageFont.truetype` raises
`IOError`), `generate_luminosity_mapping` returns immediately and the ramp
that was active before the call is exactly the ramp after it. -/
theorem generate_ramp_font_failure_noop (F : Type) (ink : F → ℕ → ℚ) (lum : List Char) :
    generate_luminosity_mapping F none ink lum = lum := rfl

/-- C9: after processing, the grid has exactly one column per sampled-image
column and one row per sampled-image row, and every cell holds a character
drawn from the active (default) ramp. -/
theorem process_grid_shape (img : ℕ → ℕ → ℕ × ℕ × ℕ) (w h : ℕ)
    (hpix : ∀ x y, (img x y).1 ≤ 255 ∧ (img x y).2.1 ≤ 255 ∧ (img x y).2.2 ≤ 255) :
    (processResult img w h).length = w ∧
    (∀ col ∈ processResult img w h, col.length = h) ∧
    (∀ col ∈ processResult img w h, ∀ cell ∈ col,
      ∃ c : Char, cell = some c ∧ c ∈ luminosity) := by
  refine ⟨by simp [processResult], ?_, ?_⟩
  · intro col hcol
    simp only [processResult, List.mem_map, List.mem_range] at hcol
    obtain ⟨x, hx, rfl⟩ := hcol
    simp
  · intro col hcol cell hcell
    simp only [processResult, List.mem_map, List.mem_range] at hcol
    obtain ⟨x, hx, rfl⟩ := hcol
    simp only [List.mem_map, List.mem_range] at hcell
    obtain ⟨y, hy, rfl⟩ := hcell
    obtain ⟨h1, h2, h3⟩ := hpix x y
    have hnn := lumIndex_nonneg 86 (img x y).1 (img x y).2.1 (img x y).2.2
    have hlt : lumIndex 86 (img x y).1 (img x y).2.1 (img x y).2.2 < 86 := by
      by_cases hw : (img x y).1 = 255 ∧ (img x y).2.1 = 255 ∧ (img x y).2.2 = 255
      · obtain ⟨e1, e2, e3⟩ := hw
        rw [e1, e2, e3, lumIndex_white_86]
        norm_num
      · have h := lumIndex_lt_notwhite 86 (img x y).1 (img x y).2.1
          (img x y).2.2 (by omega) h1 h2 h3 hw
        exact_mod_cast h
    have htn : (lumIndex 86 (img x y).1 (img x y).2.1 (img x y).2.2).toNat
        < luminosity.length := by
      rw [luminosity_length]
      omega
    unfold mapPixel pyGet
    rw [luminosity_length, if_pos hnn]
    exact ⟨luminosity.get ⟨_, htn⟩, List.get?_eq_get htn, List.get_mem _ _ _⟩

theorem process_grid_shape_witness :
    (processResult (fun _ _ => (255, 255, 255)) 1 1).length = 1 :=
  (process_grid_shape (fun _ _ => (255, 255, 255)) 1 1
    (fun _ _ => ⟨le_refl _, le_refl _, le_refl _⟩)).1

theorem cumsumGo_length (s : ℤ) (xs : List ℤ) : (cumsumGo s xs).length = xs.length := by
  induction xs generalizing s with
  | nil => simp [cumsumGo]
  | cons x xs ih => simp [cumsumGo, ih]

theorem cumsumGo_get (s : ℤ) (xs : List ℤ) (i : ℕ) (h : i < (cumsumGo s xs).length) :
    (cumsumGo s xs).get ⟨i, h⟩ = s + (xs.take (i + 1)).sum := by
  induction xs generalizing s i with
  | nil => simp [cumsumGo] at h
  | cons x xs ih =>
    cases i with
    | zero => simp [cumsumGo]
    | succ i =>
      have hstep : cumsumGo s (x :: xs) = (s + x) :: cumsumGo (s + x) xs := rfl
      have h' : i < (cumsumGo (s + x) xs).length := by
        rw [hstep] at h
        simpa using h
      calc (cumsumGo s (x :: xs)).get ⟨i + 1, h⟩
          = (cumsumGo (s + x) xs).get ⟨i, h'⟩ := rfl
        _ = (s + x) + (xs.take (i + 1)).sum := ih (s + x) i h'
        _ = s + ((x :: xs).take (i + 1 + 1)).sum := by
            rw [List.take_succ_cons, List.sum_cons]
            ring

/-- C10: `cumsum` returns a list of the same length whose i-th element is the
inclusive prefix sum of the input, and the cross-reference offsets of
`to_pdf` are exactly these prefix sums of the serialized block lengths. -/
theorem cumsum_spec (xs : List ℤ) :
    (cumsum xs).length = xs.length ∧
    (∀ i (h : i < (cumsum xs).length), (cumsum xs).get ⟨i, h⟩ = (xs.take (i + 1)).sum) ∧
    (∀ blocks : List (List (List Char)),
      blockoffsets blocks = cumsum (blocks.map fun b => ((joinNL b).length : ℤ))) := by
  refine ⟨cumsumGo_length 0 xs, ?_, fun _ => rfl⟩
  intro i h
  exact (cumsumGo_get 0 xs i h).trans (zero_add _)

theorem cumsum_spec_witness :
    (cumsum [(3:ℤ), 5, 2]).get ⟨1, by decide⟩ = ([(3:ℤ), 5, 2].take 2).sum :=
  (cumsum_spec [(3:ℤ), 5, 2]).2.1 1 (by decide)

/-! ### The cross-reference table of to_pdf -/

/-- C2 (code bug): the recorded cross-reference offsets are the cumulative
lengths of the newline-joined blocks, but the final buffer inserts one more
newline between consecutive blocks, so the recorded offset for object i is
short by exactly i bytes.  Concretely, in the all-white run the first in-use
entry records offset 13, yet byte 13 of the buffer is the separator newline
and the declaration `1 0 obj` begins at byte 14; likewise object 2 is
recorded at 57 but starts at 59. -/
theorem xref_offsets_wrong :
    blockoffsets pdfBlocksWhite = [13, 57, 109, 281, 476, 551, 703, 1058, 1070] ∧
    ((to_pdf_assemble pdfBlocksWhite).drop 13).take 8 = '\n' :: "1 0 obj".data ∧
    ((to_pdf_assemble pdfBlocksWhite).drop 14).take 7 = "1 0 obj".data ∧
    ((to_pdf_assemble pdfBlocksWhite).drop 57).take 7 ≠ "2 0 obj".data ∧
    ((to_pdf_assemble pdfBlocksWhite).drop 59).take 7 = "2 0 obj".data :=
  ⟨by decide, by decide, by decide, by decide, by decide⟩

/-- C4 (code bug): in the all-white run the trailer records `/Size 10`
although there are 8 document objects (so objects + 1 = 9); the subsection
header declares 9 entries while 10 entry lines (one free + 9 in-use) follow
before `trailer<<`; and the number after `startxref` is 1070 although the
`xref` keyword begins at byte 1079 of the buffer. -/
theorem trailer_counts_and_startxref_wrong :
    pdfBlocksWhite.length = 9 ∧
    (xrefSection pdfBlocksWhite).get? 1 = some ("0 9".data) ∧
    ((xrefSection pdfBlocksWhite).drop 2).take 11 =
      ["0000000000 65535 f".data,
       "0000000013 00000 n".data, "0000000057 00000 n".data,
       "0000000109 00000 n".data, "0000000281 00000 n".data,
       "0000000476 00000 n".data, "0000000551 00000 n".data,
       "0000000703 00000 n".data, "0000001058 00000 n".data,
       "0000001070 00000 n".data, "trailer<<".data] ∧
    (xrefSection pdfBlocksWhite).get? 15 = some ("  /Size 10".data) ∧
    (xrefSection pdfBlocksWhite).get? 18 = some ("1070".data) ∧
    ((to_pdf_assemble pdfBlocksWhite).drop 1070).take 4 ≠ "xref".data ∧
    ((to_pdf_assemble pdfBlocksWhite).drop 1079).take 4 = "xref".data :=
  ⟨by decide, by decide, by decide, by decide, by decide, by decide, by decide⟩

/-! ### The plain-text renderer -/

theorem headD_eq_getD (col : List Char) (hne : col ≠ []) :
    col.headD ' ' = col.getD 0 ' ' := by
  cases col with
  | nil => exact absurd rfl hne
  | cons a l => rfl

theorem tail_getD (col : List Char) (y : ℕ) (hne : col ≠ []) :
    col.tail.getD y ' ' = col.getD (y + 1) ' ' := by
  cases col with
  | nil => exact absurd rfl hne
  | cons a l => rfl

theorem length_ne_zero_of_rect {col : List Char} {h : ℕ} (hlen : col.length = h + 1) :
    col ≠ [] := by
  intro h0
  rw [h0] at hlen
  simp at hlen

theorem pyZipGo_transpose (h : ℕ) (cols : List (List Char))
    (hne : cols ≠ []) (hrect : ∀ col ∈ cols, col.length = h) :
    pyZipGo h cols = (List.range h).map fun y => cols.map fun col => col.getD y ' ' := by
  induction h generalizing cols with
  | zero => simp [pyZipGo]
  | succ h ih =>
    have hcond : (cols.isEmpty || cols.any List.isEmpty) = false := by
      rw [Bool.or_eq_false_iff]
      constructor
      · simpa [List.isEmpty_iff] using hne
      · rw [List.any_eq_false]
        intro col hcol
        have hlen := hrect col hcol
        simp [List.isEmpty_iff]
        exact length_ne_zero_of_rect hlen
    have hstep : pyZipGo (h + 1) cols =
        if cols.isEmpty || cols.any List.isEmpty then []
        else (cols.map fun c => c.headD ' ') :: pyZipGo h (cols.map List.tail) := rfl
    rw [hstep, hcond]
    simp only [Bool.false_eq_true, if_false]
    have htne : cols.map List.tail ≠ [] := by simpa using hne
    have htrect : ∀ col ∈ cols.map List.tail, col.length = h := by
      intro col hcol
      obtain ⟨c, hc, rfl⟩ := List.mem_map.mp hcol
      have := hrect c hc
      simp [List.length_tail, this]
    rw [ih (cols.map List.tail) htne htrect]
    rw [List.range_succ_eq_map, List.map_cons, List.map_map]
    congr 1
    · apply List.map_congr_left
      intro col hcol
      exact headD_eq_getD col (length_ne_zero_of_rect (hrect col hcol))
    · apply List.map_congr_left
      intro y _
      simp only [Function.comp, List.map_map]
      apply List.map_congr_left
      intro col hcol
      exact tail_getD col y (length_ne_zero_of_rect (hrect col hcol))

/-- C7: for a nonempty rectangular `[column][row]` grid of height `h`,
`to_plain_text` produces exactly the transposed rows, each with only its
trailing whitespace removed, joined by single newlines. -/
theorem to_plain_text_spec (result : List (List Char)) (h : ℕ)
    (hne : result ≠ []) (hrect : ∀ col ∈ result, col.length = h) :
    to_plain_text result = plainTextSpec h result := by
  have hfuel : (result.headD []).length = h := by
    cases result with
    | nil => exact absurd rfl hne
    | cons c cs => exact hrect c (List.mem_cons_self _ _)
  have hzip : pyZip result = (List.range h).map fun y => result.map fun col => col.getD y ' ' := by
    unfold pyZip
    rw [hfuel]
    exact pyZipGo_transpose h result hne hrect
  unfold to_plain_text plainTextSpec
  rw [hzip]

theorem to_plain_text_spec_witness :
    to_plain_text [['a', ' '], ['b', 'c']] = plainTextSpec 2 [['a', ' '], ['b', 'c']] :=
  to_plain_text_spec [['a', ' '], ['b', 'c']] 2 (by decide) (by decide)

/-! ### The PostScript layout -/

/-- C8 counterexample: for a3 paper, 10 mm margins and a 1x1 grid, the
translate offset of `to_postscript` has x-component 10 (the raw millimeter
number), while the offset that centers the scaled content between the
converted margins has x-component 2834645669/100000000 = 28.34645669pt:
the two disagree, so the emitted translate does not center the content
within the printable area. -/
theorem ps_offset_not_centered :
    psOffset 297 420 10 10 10 10 1 1 ≠ centeredOffset 297 420 10 10 10 10 1 1 := by
  have hceil : (⌈(2.834645669 : ℚ) * 297 - 2.834645669 * (10 + 10)⌉ : ℤ) = 786 := by
    rw [Int.ceil_eq_iff]
    constructor <;> norm_num
  have hx : (psOffset 297 420 10 10 10 10 1 1).1 = 10 := by
    simp only [psOffset, psPrintable, psNatural, psScale, mm2pt]
    rw [hceil]
    norm_num
  have hy : (centeredOffset 297 420 10 10 10 10 1 1).1 = 2834645669 / 100000000 := by
    simp only [centeredOffset, psPrintable, psNatural, psScale, mm2pt]
    rw [hceil]
    norm_num
  intro hcontra
  rw [hcontra, hy] at hx
  norm_num at hx

/-- C8 (amended): paper size and margins are converted from millimeters to
points (1mm = 2.834645669pt) for the printable-size computation, and the
uniform scale is printable width over natural width; but the translate
offset adds the raw, unconverted margin numbers: since the scaled width
fills the printable width exactly, its x-component equals the raw left
margin `mL` itself, whereas centering between the converted margins would
require `mm2pt mL`; the two differ whenever the left margin is positive. -/
theorem ps_layout_amended (pw ph mT mR mB mL : ℚ) (w h : ℕ)
    (hw : 0 < w) (hmL : 0 < mL) :
    psScale pw ph mT mR mB mL w h
      = (psPrintable pw ph mT mR mB mL).1 / ((w : ℚ) * 12) ∧
    (psOffset pw ph mT mR mB mL w h).1 = mL ∧
    (centeredOffset pw ph mT mR mB mL w h).1 = mm2pt mL ∧
    (psOffset pw ph mT mR mB mL w h).1 ≠ (centeredOffset pw ph mT mR mB mL w h).1 := by
  have hwq : ((w : ℚ) * 12) ≠ 0 := by
    have : (0:ℚ) < w := by exact_mod_cast hw
    positivity
  have hcancel : (psNatural w h).1 * psScale pw ph mT mR mB mL w h
      = (psPrintable pw ph mT mR mB mL).1 := by
    unfold psScale psNatural
    field_simp
  refine ⟨rfl, ?_, ?_, ?_⟩
  · unfold psOffset
    rw [hcancel]
    ring
  · unfold centeredOffset
    rw [hcancel]
    ring
  · unfold psOffset centeredOffset
    rw [hcancel]
    unfold mm2pt
    intro hcontra
    rw [sub_self, zero_div, add_zero, add_zero] at hcontra
    nlinarith [hcontra]

theorem ps_layout_amended_witness :
    (psOffset 297 420 10 10 10 10 1 1).1 = 10 ∧
    (psOffset 297 420 10 10 10 10 1 1).1 ≠ (centeredOffset 297 420 10 10 10 10 1 1).1 :=
  ⟨(ps_layout_amended 297 420 10 10 10 10 1 1 one_pos (by norm_num)).2.1,
   (ps_layout_amended 297 420 10 10 10 10 1 1 one_pos (by norm_num)).2.2.2⟩

end Asciifier
